import Mathlib

/-!
Shallow embedding of the MH-C2C reference implementation (mh_c_2_c.py):
the Metropolis acceptance gate, the round state machine over a list of
chains, the convergence check, and the final best-chain selection.
Scores are modelled over an arbitrary linear ordered ring; the gate
semantics over the reals. The LLM-backed generation, critique and
refinement calls, and the scoring metric, are modelled as an explicit
oracle bundle, and the stream of uniform draws consumed by the gate is
made explicit through a draw index threaded through the run.
-/

namespace MHC2C

/-- One chain: a candidate text together with its current score.
Mirrors the dataclass Chain of the source (fields text and score). -/
structure Chain (F : Type) where
  text : String
  score : F
  deriving DecidableEq

/-- The external collaborators of the core loop. The field init models the
round-0 call of the LLM on the initial prompt built from a role (the task
string is fixed for a run and folded into the oracle); self_critique,
mutual_critique and propose_refinement model the three prompt helpers of
the source; score models the scoring function. -/
structure Oracles (F : Type) where
  init : String → String
  self_critique : String → String
  mutual_critique : String → List String → String
  propose_refinement : String → String → String → String
  score : String → F

/-- Toy scoring metric of the source: the shorter the answer, the higher
the score. -/
def score (text : String) : ℤ := -(text.length : ℤ)

/-- The acceptance test mh_accept of the source, with the uniform draw u
made explicit: delta = new_s - old_s, alpha = 1 when delta is nonnegative
and exp(beta * delta) otherwise, and the proposal is accepted exactly when
u < alpha. -/
def mh_accept (old_s new_s beta u : ℝ) : Prop :=
  u < (if 0 ≤ new_s - old_s then (1 : ℝ) else Real.exp (beta * (new_s - old_s)))

variable {F : Type} [LinearOrderedRing F]

/-- The builtin two-argument max of Python: return the second argument
exactly when it is strictly greater, so ties keep the first. -/
def pyMaxPair (a b : F) : F := if a < b then b else a

/-- The builtin abs of Python. -/
def pyAbs (x : F) : F := if x < 0 then -x else x

/-- Peer texts for chain i: the texts of all chains with index j other
than i, read from the current chain list. -/
def peersOf (chains : List (Chain F)) (i : ℕ) : List String :=
  (chains.enum.filter (fun p => p.1 != i)).map (fun p => p.2.text)

/-- The proposal computed for chain i from the current chain list:
self-critique and mutual critique of the current text of chain i against
its peers, then the refinement of the text under both critiques. -/
def proposeFor (O : Oracles F) (chains : List (Chain F)) (i : ℕ) : String :=
  let c := chains.getD i ⟨"", 0⟩
  O.propose_refinement c.text (O.self_critique c.text)
    (O.mutual_critique c.text (peersOf chains i))

/-- State threaded through one round of the main loop: the chain list, the
running maximum accepted movement max_delta, and the index of the next
uniform draw to be consumed by the acceptance gate. -/
structure RoundSt (F : Type) where
  chains : List (Chain F)
  max_delta : F
  draws : ℕ
  deriving DecidableEq

/-- One body execution of the inner per-chain loop of the source at chain
index i: build the proposal from the current chain list, score it, consume
one uniform draw in the gate; on accept fold the absolute score movement
into max_delta and overwrite the pair of text and score of chain i; on
reject leave the chain list and max_delta unchanged. The gate argument
abstracts the acceptance decision as a function of the draw index and the
old and new scores. -/
def mhChainStep (O : Oracles F) (gate : ℕ → F → F → Bool) (st : RoundSt F)
    (i : ℕ) : RoundSt F :=
  let c := st.chains.getD i ⟨"", 0⟩
  let prop := proposeFor O st.chains i
  let new_s := O.score prop
  if gate st.draws c.score new_s then
    ⟨st.chains.set i ⟨prop, new_s⟩, pyMaxPair st.max_delta (pyAbs (new_s - c.score)),
      st.draws + 1⟩
  else
    ⟨st.chains, st.max_delta, st.draws + 1⟩

/-- The round state after the chains of index smaller than i have been
processed, starting from the given chain list, max_delta initialised to 0
and draw index n. -/
def roundUpTo (O : Oracles F) (gate : ℕ → F → F → Bool)
    (chains : List (Chain F)) (n i : ℕ) : RoundSt F :=
  (List.range i).foldl (mhChainStep O gate) ⟨chains, 0, n⟩

/-- One full round of the source loop: process every chain in index
order. -/
def mhRound (O : Oracles F) (gate : ℕ → F → F → Bool)
    (chains : List (Chain F)) (n : ℕ) : RoundSt F :=
  roundUpTo O gate chains n chains.length

/-- The proposal actually built for chain i during a round, read off the
intermediate state in which chains of smaller index have already been
processed. -/
def propAt (O : Oracles F) (gate : ℕ → F → F → Bool)
    (chains : List (Chain F)) (n i : ℕ) : String :=
  proposeFor O (roundUpTo O gate chains n i).chains i

/-- The acceptance decision taken for chain i during a round, exactly as
the step function evaluates it on the intermediate state. -/
def acceptedAt (O : Oracles F) (gate : ℕ → F → F → Bool)
    (chains : List (Chain F)) (n i : ℕ) : Bool :=
  let st := roundUpTo O gate chains n i
  gate st.draws (st.chains.getD i ⟨"", 0⟩).score (O.score (proposeFor O st.chains i))

/-- The absolute score movement of the proposal for chain i during a
round. -/
def deltaAt (O : Oracles F) (gate : ℕ → F → F → Bool)
    (chains : List (Chain F)) (n i : ℕ) : F :=
  let st := roundUpTo O gate chains n i
  pyAbs (O.score (proposeFor O st.chains i) - (st.chains.getD i ⟨"", 0⟩).score)

/-- The peer texts chain i actually sees during a round: the texts of all
other chains at the moment chain i is processed, chains of smaller index
already carrying their round updates. -/
def peersSeenAt (O : Oracles F) (gate : ℕ → F → F → Bool)
    (chains : List (Chain F)) (n i : ℕ) : List String :=
  peersOf (roundUpTo O gate chains n i).chains i

/-- Result of the outer round loop: final chain list, next draw index,
number of rounds executed, and whether the loop stopped through the
convergence break. -/
structure LoopOut (F : Type) where
  chains : List (Chain F)
  draws : ℕ
  rounds : ℕ
  converged : Bool
  deriving DecidableEq

/-- The outer loop of the source, by remaining round budget: run one
round; if its maximum accepted movement is strictly below eps, stop
through the convergence break, else continue with the remaining budget. -/
def mhLoop (O : Oracles F) (gate : ℕ → F → F → Bool) (eps : F) :
    ℕ → List (Chain F) → ℕ → LoopOut F
  | 0, chains, n => ⟨chains, n, 0, false⟩
  | T + 1, chains, n =>
    let r := mhRound O gate chains n
    if r.max_delta < eps then ⟨r.chains, r.draws, 1, true⟩
    else
      let rest := mhLoop O gate eps T r.chains r.draws
      ⟨rest.chains, rest.draws, rest.rounds + 1, rest.converged⟩

/-- Left scan of the builtin max of Python with a key function: replace
the current best only on a strictly greater key, so the first element
attaining the maximum key is kept. -/
def pyFold {α : Type} (key : α → F) (a : α) (l : List α) : α :=
  l.foldl (fun b y => if key b < key y then y else b) a

/-- Best-element selection of the builtin max of Python with a key
function; the empty list raises, modelled as none. -/
def pyMax {α : Type} (key : α → F) : List α → Option α
  | [] => none
  | x :: xs => some (pyFold key x xs)

/-- Default role labels of the source for m agents. -/
def defaultRoles (m : ℕ) : List String :=
  (List.range m).map (fun i => "Agent " ++ toString (i + 1))

/-- The roles actually used by a run: the Python expression roles or
default evaluates to the default list both when roles is absent and when
the given list is empty. -/
def effectiveRoles (m : ℕ) (roles : Option (List String)) : List String :=
  match roles with
  | none => defaultRoles m
  | some l => if l.isEmpty then defaultRoles m else l

/-- Round 0 of the source: one independent initial generation per role,
scored immediately; no acceptance gating. -/
def initChains (O : Oracles F) (roles : List String) : List (Chain F) :=
  roles.map (fun r => let t := O.init r; ⟨t, O.score t⟩)

/-- The state at the end of the round loop of a full run. -/
def finalState (O : Oracles F) (gate : ℕ → F → F → Bool) (m T : ℕ)
    (eps : F) (roles : Option (List String)) : LoopOut F :=
  mhLoop O gate eps T (initChains O (effectiveRoles m roles)) 0

/-- The full run mh_c2c of the source: build the initial chains, run up to
T refinement rounds, and return the chain of maximum score; an empty chain
population makes the final max raise, modelled as none. -/
def mh_c2c (O : Oracles F) (gate : ℕ → F → F → Bool) (m T : ℕ) (eps : F)
    (roles : Option (List String)) : Option (Chain F) :=
  pyMax Chain.score (finalState O gate m T eps roles).chains

/-- Number of rounds the loop of a run actually executed, as an
observation of the execution; the source prints but does not return it. -/
def roundsExecuted (O : Oracles F) (gate : ℕ → F → F → Bool) (m T : ℕ)
    (eps : F) (roles : Option (List String)) : ℕ :=
  (finalState O gate m T eps roles).rounds

/-- Whether the loop of a run stopped through the convergence break, as an
observation of the execution; the source prints but does not return it. -/
def convergedRun (O : Oracles F) (gate : ℕ → F → F → Bool) (m T : ℕ)
    (eps : F) (roles : Option (List String)) : Bool :=
  (finalState O gate m T eps roles).converged

/-- A gate that accepts every proposal, the behavior of mh_accept at
beta = 0 for every draw in the unit interval. -/
def gateAlways : ℕ → ℤ → ℤ → Bool := fun _ _ _ => true

/-- A gate that rejects every proposal. -/
def gateNever : ℕ → ℤ → ℤ → Bool := fun _ _ _ => false

/-- Deterministic stub oracle whose refinement appends one character to
the current text, with the toy length score. -/
def bangOracle : Oracles ℤ :=
  ⟨id, fun _ => "", fun _ _ => "", fun t _ _ => t ++ "!", score⟩

/-- Deterministic stub oracle whose refinement returns the current text
unchanged, with the toy length score. -/
def idOracle : Oracles ℤ :=
  ⟨id, fun _ => "", fun _ _ => "", fun t _ _ => t, score⟩

/-! Basic facts about the embedded operations. -/

theorem pyMaxPair_eq_max (a b : F) : pyMaxPair a b = max a b := by
  rcases le_or_lt b a with h | h
  · rw [pyMaxPair, if_neg (not_lt.mpr h), max_eq_left h]
  · rw [pyMaxPair, if_pos h, max_eq_right h.le]

theorem pyAbs_eq_abs (x : F) : pyAbs x = |x| := by
  rcases lt_or_le x 0 with h | h
  · rw [pyAbs, if_pos h, abs_of_neg h]
  · rw [pyAbs, if_neg (not_lt.mpr h), abs_of_nonneg h]

theorem mhChainStep_chains_length (O : Oracles F) (gate : ℕ → F → F → Bool)
    (st : RoundSt F) (i : ℕ) :
    (mhChainStep O gate st i).chains.length = st.chains.length := by
  unfold mhChainStep
  dsimp only
  split <;> simp

theorem mhChainStep_draws (O : Oracles F) (gate : ℕ → F → F → Bool)
    (st : RoundSt F) (i : ℕ) :
    (mhChainStep O gate st i).draws = st.draws + 1 := by
  unfold mhChainStep
  dsimp only
  split <;> rfl

theorem mhChainStep_getElem?_ne (O : Oracles F) (gate : ℕ → F → F → Bool)
    (st : RoundSt F) {i j : ℕ} (h : j ≠ i) :
    (mhChainStep O gate st i).chains[j]? = st.chains[j]? := by
  unfold mhChainStep
  dsimp only
  split
  · exact List.getElem?_set_ne (Ne.symm h)
  · rfl

theorem roundUpTo_zero (O : Oracles F) (gate : ℕ → F → F → Bool)
    (chains : List (Chain F)) (n : ℕ) :
    roundUpTo O gate chains n 0 = ⟨chains, 0, n⟩ := rfl

theorem roundUpTo_succ (O : Oracles F) (gate : ℕ → F → F → Bool)
    (chains : List (Chain F)) (n i : ℕ) :
    roundUpTo O gate chains n (i + 1) =
      mhChainStep O gate (roundUpTo O gate chains n i) i := by
  unfold roundUpTo
  rw [List.range_succ, List.foldl_append]
  rfl

theorem roundUpTo_chains_length (O : Oracles F) (gate : ℕ → F → F → Bool)
    (chains : List (Chain F)) (n i : ℕ) :
    (roundUpTo O gate chains n i).chains.length = chains.length := by
  induction i with
  | zero => rfl
  | succ i ih => rw [roundUpTo_succ, mhChainStep_chains_length, ih]

theorem roundUpTo_draws (O : Oracles F) (gate : ℕ → F → F → Bool)
    (chains : List (Chain F)) (n i : ℕ) :
    (roundUpTo O gate chains n i).draws = n + i := by
  induction i with
  | zero => rfl
  | succ i ih =>
    rw [roundUpTo_succ, mhChainStep_draws, ih]
    rfl

theorem roundUpTo_getElem?_ge (O : Oracles F) (gate : ℕ → F → F → Bool)
    (chains : List (Chain F)) (n : ℕ) {i j : ℕ} (h : i ≤ j) :
    (roundUpTo O gate chains n i).chains[j]? = chains[j]? := by
  induction i with
  | zero => rfl
  | succ i ih =>
    rw [roundUpTo_succ,
      mhChainStep_getElem?_ne O gate _ (Nat.ne_of_gt (Nat.lt_of_succ_le h)),
      ih (Nat.le_of_succ_le h)]

theorem roundUpTo_getD_ge (O : Oracles F) (gate : ℕ → F → F → Bool)
    (chains : List (Chain F)) (n : ℕ) {i j : ℕ} (h : i ≤ j) :
    (roundUpTo O gate chains n i).chains.getD j ⟨"", 0⟩ = chains.getD j ⟨"", 0⟩ := by
  rw [List.getD_eq_getElem?_getD, List.getD_eq_getElem?_getD,
    roundUpTo_getElem?_ge O gate chains n h]

theorem roundUpTo_getElem?_frozen (O : Oracles F) (gate : ℕ → F → F → Bool)
    (chains : List (Chain F)) (n : ℕ) {i j : ℕ} (h : j < i) :
    (roundUpTo O gate chains n i).chains[j]? =
      (roundUpTo O gate chains n (j + 1)).chains[j]? := by
  induction i with
  | zero => exact absurd h (Nat.not_lt_zero j)
  | succ i ih =>
    rcases Nat.lt_succ_iff_lt_or_eq.mp h with h' | h'
    · rw [roundUpTo_succ, mhChainStep_getElem?_ne O gate _ (Nat.ne_of_lt h'), ih h']
    · rw [h']

theorem roundUpTo_succ_eq (O : Oracles F) (gate : ℕ → F → F → Bool)
    (chains : List (Chain F)) (n i : ℕ) :
    roundUpTo O gate chains n (i + 1) =
      if acceptedAt O gate chains n i then
        ⟨(roundUpTo O gate chains n i).chains.set i
            ⟨propAt O gate chains n i, O.score (propAt O gate chains n i)⟩,
          pyMaxPair (roundUpTo O gate chains n i).max_delta (deltaAt O gate chains n i),
          (roundUpTo O gate chains n i).draws + 1⟩
      else
        ⟨(roundUpTo O gate chains n i).chains,
          (roundUpTo O gate chains n i).max_delta,
          (roundUpTo O gate chains n i).draws + 1⟩ := by
  rw [roundUpTo_succ]
  rfl

theorem acceptedAt_eq (O : Oracles F) (gate : ℕ → F → F → Bool)
    (chains : List (Chain F)) (n i : ℕ) :
    acceptedAt O gate chains n i =
      gate (n + i) (chains.getD i ⟨"", 0⟩).score (O.score (propAt O gate chains n i)) := by
  unfold acceptedAt propAt
  dsimp only
  rw [roundUpTo_draws, roundUpTo_getD_ge O gate chains n (le_refl i)]

theorem deltaAt_eq (O : Oracles F) (gate : ℕ → F → F → Bool)
    (chains : List (Chain F)) (n i : ℕ) :
    deltaAt O gate chains n i =
      |O.score (propAt O gate chains n i) - (chains.getD i ⟨"", 0⟩).score| := by
  unfold deltaAt propAt
  dsimp only
  rw [pyAbs_eq_abs, roundUpTo_getD_ge O gate chains n (le_refl i)]

theorem roundUpTo_max_delta_succ (O : Oracles F) (gate : ℕ → F → F → Bool)
    (chains : List (Chain F)) (n i : ℕ) :
    (roundUpTo O gate chains n (i + 1)).max_delta =
      if acceptedAt O gate chains n i then
        pyMaxPair (roundUpTo O gate chains n i).max_delta (deltaAt O gate chains n i)
      else (roundUpTo O gate chains n i).max_delta := by
  rw [roundUpTo_succ_eq]
  split <;> rfl

theorem roundUpTo_getElem?_succ_self (O : Oracles F) (gate : ℕ → F → F → Bool)
    (chains : List (Chain F)) (n : ℕ) {i : ℕ} (h : i < chains.length) :
    (roundUpTo O gate chains n (i + 1)).chains[i]? =
      some (if acceptedAt O gate chains n i then
          ⟨propAt O gate chains n i, O.score (propAt O gate chains n i)⟩
        else chains.getD i ⟨"", 0⟩) := by
  rw [roundUpTo_succ_eq]
  split
  · exact List.getElem?_set_eq_of_lt _
      (by rw [roundUpTo_chains_length]; exact h)
  · rw [roundUpTo_getElem?_ge O gate chains n (le_refl i),
      List.getElem?_eq_getElem h, List.getD_eq_getElem chains _ h]

theorem mhRound_getElem? (O : Oracles F) (gate : ℕ → F → F → Bool)
    (chains : List (Chain F)) (n : ℕ) {i : ℕ} (h : i < chains.length) :
    (mhRound O gate chains n).chains[i]? =
      some (if acceptedAt O gate chains n i then
          ⟨propAt O gate chains n i, O.score (propAt O gate chains n i)⟩
        else chains.getD i ⟨"", 0⟩) := by
  unfold mhRound
  rw [roundUpTo_getElem?_frozen O gate chains n h,
    roundUpTo_getElem?_succ_self O gate chains n h]

theorem mhRound_chains_length (O : Oracles F) (gate : ℕ → F → F → Bool)
    (chains : List (Chain F)) (n : ℕ) :
    (mhRound O gate chains n).chains.length = chains.length :=
  roundUpTo_chains_length O gate chains n chains.length

theorem mhRound_draws (O : Oracles F) (gate : ℕ → F → F → Bool)
    (chains : List (Chain F)) (n : ℕ) :
    (mhRound O gate chains n).draws = n + chains.length :=
  roundUpTo_draws O gate chains n chains.length

theorem roundUpTo_max_delta_eq (O : Oracles F) (gate : ℕ → F → F → Bool)
    (chains : List (Chain F)) (n i : ℕ) :
    (roundUpTo O gate chains n i).max_delta =
      ((List.range i).filter (fun k => acceptedAt O gate chains n k)).foldl
        (fun m k => max m (deltaAt O gate chains n k)) 0 := by
  induction i with
  | zero => rfl
  | succ i ih =>
    rw [roundUpTo_max_delta_succ, List.range_succ, List.filter_append,
      List.foldl_append, ← ih]
    cases hA : acceptedAt O gate chains n i <;>
      simp [hA, pyMaxPair_eq_max]

theorem roundUpTo_chains_of_rejected (O : Oracles F) (gate : ℕ → F → F → Bool)
    (chains : List (Chain F)) (n : ℕ) {i : ℕ}
    (h : ∀ k, k < i → acceptedAt O gate chains n k = false) :
    (roundUpTo O gate chains n i).chains = chains := by
  induction i with
  | zero => rfl
  | succ i ih =>
    rw [roundUpTo_succ_eq, h i (Nat.lt_succ_self i)]
    simp only [Bool.false_eq_true, if_false]
    exact ih fun k hk => h k (Nat.lt_succ_of_lt hk)

theorem roundUpTo_max_delta_of_rejected (O : Oracles F)
    (gate : ℕ → F → F → Bool) (chains : List (Chain F)) (n : ℕ) {i : ℕ}
    (h : ∀ k, k < i → acceptedAt O gate chains n k = false) :
    (roundUpTo O gate chains n i).max_delta = 0 := by
  induction i with
  | zero => rfl
  | succ i ih =>
    rw [roundUpTo_max_delta_succ, h i (Nat.lt_succ_self i)]
    simp only [Bool.false_eq_true, if_false]
    exact ih fun k hk => h k (Nat.lt_succ_of_lt hk)

theorem mhChainStep_consistent (O : Oracles F) (gate : ℕ → F → F → Bool)
    (st : RoundSt F) (i : ℕ)
    (h : ∀ c ∈ st.chains, c.score = O.score c.text) :
    ∀ c ∈ (mhChainStep O gate st i).chains, c.score = O.score c.text := by
  intro c hc
  unfold mhChainStep at hc
  dsimp only at hc
  split at hc
  · rcases List.mem_or_eq_of_mem_set hc with hc | hc
    · exact h c hc
    · rw [hc]
  · exact h c hc

theorem roundUpTo_consistent (O : Oracles F) (gate : ℕ → F → F → Bool)
    (chains : List (Chain F)) (n i : ℕ)
    (h : ∀ c ∈ chains, c.score = O.score c.text) :
    ∀ c ∈ (roundUpTo O gate chains n i).chains, c.score = O.score c.text := by
  induction i with
  | zero => exact h
  | succ i ih =>
    rw [roundUpTo_succ]
    exact mhChainStep_consistent O gate _ i ih

theorem mhRound_consistent (O : Oracles F) (gate : ℕ → F → F → Bool)
    (chains : List (Chain F)) (n : ℕ)
    (h : ∀ c ∈ chains, c.score = O.score c.text) :
    ∀ c ∈ (mhRound O gate chains n).chains, c.score = O.score c.text :=
  roundUpTo_consistent O gate chains n chains.length h

omit [LinearOrderedRing F] in
theorem initChains_consistent (O : Oracles F) (roles : List String) :
    ∀ c ∈ initChains O roles, c.score = O.score c.text := by
  intro c hc
  rw [initChains, List.mem_map] at hc
  rcases hc with ⟨r, _, rfl⟩
  rfl

theorem mhLoop_zero (O : Oracles F) (gate : ℕ → F → F → Bool) (eps : F)
    (chains : List (Chain F)) (n : ℕ) :
    mhLoop O gate eps 0 chains n = ⟨chains, n, 0, false⟩ := rfl

theorem mhLoop_succ (O : Oracles F) (gate : ℕ → F → F → Bool) (eps : F)
    (T : ℕ) (chains : List (Chain F)) (n : ℕ) :
    mhLoop O gate eps (T + 1) chains n =
      if (mhRound O gate chains n).max_delta < eps then
        ⟨(mhRound O gate chains n).chains, (mhRound O gate chains n).draws, 1, true⟩
      else
        ⟨(mhLoop O gate eps T (mhRound O gate chains n).chains (mhRound O gate chains n).draws).chains,
          (mhLoop O gate eps T (mhRound O gate chains n).chains (mhRound O gate chains n).draws).draws,
          (mhLoop O gate eps T (mhRound O gate chains n).chains (mhRound O gate chains n).draws).rounds + 1,
          (mhLoop O gate eps T (mhRound O gate chains n).chains (mhRound O gate chains n).draws).converged⟩ := rfl

theorem mhLoop_succ_of_lt (O : Oracles F) (gate : ℕ → F → F → Bool) (eps : F)
    (T : ℕ) (chains : List (Chain F)) (n : ℕ)
    (h : (mhRound O gate chains n).max_delta < eps) :
    mhLoop O gate eps (T + 1) chains n =
      ⟨(mhRound O gate chains n).chains, (mhRound O gate chains n).draws, 1, true⟩ := by
  rw [mhLoop_succ, if_pos h]

theorem mhLoop_succ_of_ge (O : Oracles F) (gate : ℕ → F → F → Bool) (eps : F)
    (T : ℕ) (chains : List (Chain F)) (n : ℕ)
    (h : ¬ (mhRound O gate chains n).max_delta < eps) :
    mhLoop O gate eps (T + 1) chains n =
      ⟨(mhLoop O gate eps T (mhRound O gate chains n).chains (mhRound O gate chains n).draws).chains,
        (mhLoop O gate eps T (mhRound O gate chains n).chains (mhRound O gate chains n).draws).draws,
        (mhLoop O gate eps T (mhRound O gate chains n).chains (mhRound O gate chains n).draws).rounds + 1,
        (mhLoop O gate eps T (mhRound O gate chains n).chains (mhRound O gate chains n).draws).converged⟩ := by
  rw [mhLoop_succ, if_neg h]

theorem mhLoop_consistent (O : Oracles F) (gate : ℕ → F → F → Bool) (eps : F)
    (T : ℕ) (chains : List (Chain F)) (n : ℕ)
    (h : ∀ c ∈ chains, c.score = O.score c.text) :
    ∀ c ∈ (mhLoop O gate eps T chains n).chains, c.score = O.score c.text := by
  induction T generalizing chains n with
  | zero => exact h
  | succ T ih =>
    by_cases hlt : (mhRound O gate chains n).max_delta < eps
    · rw [mhLoop_succ_of_lt O gate eps T chains n hlt]
      exact mhRound_consistent O gate chains n h
    · rw [mhLoop_succ_of_ge O gate eps T chains n hlt]
      exact ih _ _ (mhRound_consistent O gate chains n h)

theorem mhLoop_chains_length (O : Oracles F) (gate : ℕ → F → F → Bool)
    (eps : F) (T : ℕ) (chains : List (Chain F)) (n : ℕ) :
    (mhLoop O gate eps T chains n).chains.length = chains.length := by
  induction T generalizing chains n with
  | zero => rfl
  | succ T ih =>
    by_cases hlt : (mhRound O gate chains n).max_delta < eps
    · rw [mhLoop_succ_of_lt O gate eps T chains n hlt]
      exact mhRound_chains_length O gate chains n
    · rw [mhLoop_succ_of_ge O gate eps T chains n hlt]
      rw [ih _ _]
      exact mhRound_chains_length O gate chains n

theorem pyFold_cons {α : Type} (key : α → F) (a y : α) (l : List α) :
    pyFold key a (y :: l) = pyFold key (if key a < key y then y else a) l := rfl

theorem pyFold_spec {α : Type} (key : α → F) :
    ∀ (l : List α) (a : α),
      key a ≤ key (pyFold key a l) ∧
      (∀ x ∈ l, key x ≤ key (pyFold key a l)) ∧
      (pyFold key a l = a ∨
        ∃ j, ∃ hj : j < l.length,
          pyFold key a l = l.get ⟨j, hj⟩ ∧
          key a < key (pyFold key a l) ∧
          ∀ j', ∀ hj' : j' < j,
            key (l.get ⟨j', Nat.lt_trans hj' hj⟩) < key (pyFold key a l)) := by
  intro l
  induction l with
  | nil =>
    intro a
    exact ⟨le_refl _, by simp, Or.inl rfl⟩
  | cons y l ih =>
    intro a
    rw [pyFold_cons]
    obtain ⟨h1, h2, h3⟩ := ih (if key a < key y then y else a)
    have hbase : key a ≤ key (if key a < key y then y else a) := by
      by_cases hy : key a < key y
      · rw [if_pos hy]; exact hy.le
      · rw [if_neg hy]
    have hy0 : key y ≤ key (if key a < key y then y else a) := by
      by_cases hy : key a < key y
      · rw [if_pos hy]
      · rw [if_neg hy]; exact not_lt.mp hy
    refine ⟨le_trans hbase h1, ?_, ?_⟩
    · intro x hx
      rcases List.mem_cons.mp hx with rfl | hx
      · exact le_trans hy0 h1
      · exact h2 x hx
    · rcases h3 with h3 | ⟨j, hj, hEq, hGt, hFirst⟩
      · by_cases hy : key a < key y
        · right
          refine ⟨0, Nat.succ_pos _, ?_, ?_, ?_⟩
          · rw [h3, if_pos hy]
            rfl
          · rw [h3, if_pos hy]
            exact hy
          · intro j' hj'
            exact absurd hj' (Nat.not_lt_zero j')
        · left
          rw [h3, if_neg hy]
      · right
        refine ⟨j + 1, Nat.succ_lt_succ hj, hEq, lt_of_le_of_lt hbase hGt, ?_⟩
        intro j' hj'
        cases j' with
        | zero => exact lt_of_le_of_lt hy0 hGt
        | succ j'' => exact hFirst j'' (Nat.lt_of_succ_lt_succ hj')

theorem pyMax_spec {α : Type} (key : α → F) (x : α) (xs : List α) :
    ∃ k, ∃ hk : k < (x :: xs).length,
      pyMax key (x :: xs) = some ((x :: xs).get ⟨k, hk⟩) ∧
      (∀ z ∈ x :: xs, key z ≤ key ((x :: xs).get ⟨k, hk⟩)) ∧
      ∀ j, ∀ hj : j < k,
        key ((x :: xs).get ⟨j, Nat.lt_trans hj hk⟩) < key ((x :: xs).get ⟨k, hk⟩) := by
  obtain ⟨h1, h2, h3⟩ := pyFold_spec key xs x
  rcases h3 with h3 | ⟨j, hj, hEq, hGt, hFirst⟩
  · refine ⟨0, Nat.succ_pos _, ?_, ?_, ?_⟩
    · rw [pyMax, h3]
      rfl
    · intro z hz
      rcases List.mem_cons.mp hz with rfl | hz
      · exact le_refl _
      · have := h2 z hz
        rw [h3] at this
        exact this
    · intro j' hj'
      exact absurd hj' (Nat.not_lt_zero j')
  · refine ⟨j + 1, Nat.succ_lt_succ hj, ?_, ?_, ?_⟩
    · rw [pyMax, hEq]
      rfl
    · intro z hz
      have hget : ((x :: xs).get ⟨j + 1, Nat.succ_lt_succ hj⟩) = xs.get ⟨j, hj⟩ := rfl
      rw [hget, ← hEq]
      rcases List.mem_cons.mp hz with rfl | hz
      · exact h1
      · exact h2 z hz
    · intro j' hj'
      have hget : ((x :: xs).get ⟨j + 1, Nat.succ_lt_succ hj⟩) = xs.get ⟨j, hj⟩ := rfl
      rw [hget, ← hEq]
      cases j' with
      | zero => exact hGt
      | succ j'' => exact hFirst j'' (Nat.lt_of_succ_lt_succ hj')

theorem pyMax_isSome {α : Type} (key : α → F) (l : List α) :
    (pyMax key l).isSome = !l.isEmpty := by
  cases l <;> rfl

omit [LinearOrderedRing F] in
theorem isEmpty_eq_of_length_eq {α β : Type} {l1 : List α} {l2 : List β}
    (h : l1.length = l2.length) : l1.isEmpty = l2.isEmpty := by
  cases l1 <;> cases l2 <;> simp_all

/-! Claims. -/

/-- C1: the acceptance gate computes delta = s_new - s_old; for beta > 0 it
accepts for every uniform draw in the unit interval when delta is
nonnegative, and when delta is negative it accepts exactly when the draw is
strictly less than exp(beta * delta). -/
theorem claim_C1_mh_accept_law (s_old s_new beta u : ℝ) (_hbeta : 0 < beta) :
    (0 ≤ s_new - s_old → 0 ≤ u → u < 1 → mh_accept s_old s_new beta u) ∧
    (s_new - s_old < 0 →
      (mh_accept s_old s_new beta u ↔ u < Real.exp (beta * (s_new - s_old)))) := by
  constructor
  · intro hd _ hu1
    unfold mh_accept
    rw [if_pos hd]
    exact hu1
  · intro hd
    unfold mh_accept
    rw [if_neg (not_le.mpr hd)]

/-- Witness for C1 at concrete inputs. -/
theorem claim_C1_witness :
    (0 : ℝ) < 1 ∧ mh_accept 0 0 1 (1 / 2) ∧
      (mh_accept 3 2 1 (1 / 2) ↔ (1 / 2 : ℝ) < Real.exp (1 * (2 - 3))) :=
  ⟨one_pos,
    (claim_C1_mh_accept_law 0 0 1 (1 / 2) one_pos).1 (by norm_num) (by norm_num)
      (by norm_num),
    (claim_C1_mh_accept_law 3 2 1 (1 / 2) one_pos).2 (by norm_num)⟩

/-- C2: the movement tracker of a round is the maximum of the absolute
score movements over exactly the accepted chains, folded from 0, and
whenever the tracker of a round is strictly below eps the loop stops right
after that round with the convergence break, regardless of the remaining
round budget. -/
theorem claim_C2_tracker_and_stop (O : Oracles F) (gate : ℕ → F → F → Bool)
    (chains : List (Chain F)) (n : ℕ) (eps : F) (T : ℕ) :
    (mhRound O gate chains n).max_delta =
      ((List.range chains.length).filter (fun k => acceptedAt O gate chains n k)).foldl
        (fun m k =>
          max m |O.score (propAt O gate chains n k) - (chains.getD k ⟨"", 0⟩).score|) 0 ∧
    ((mhRound O gate chains n).max_delta < eps →
      mhLoop O gate eps (T + 1) chains n =
        ⟨(mhRound O gate chains n).chains, (mhRound O gate chains n).draws, 1, true⟩) := by
  constructor
  · unfold mhRound
    rw [roundUpTo_max_delta_eq]
    simp only [deltaAt_eq]
  · exact mhLoop_succ_of_lt O gate eps T chains n

/-- Witness for C2: a run whose first round moves nothing stops after one
round with three rounds of budget left. -/
theorem claim_C2_witness :
    mhLoop idOracle gateNever (1 : ℤ) (2 + 1) (initChains idOracle ["A"]) 0 =
      ⟨(mhRound idOracle gateNever (initChains idOracle ["A"]) 0).chains,
        (mhRound idOracle gateNever (initChains idOracle ["A"]) 0).draws, 1, true⟩ :=
  (claim_C2_tracker_and_stop idOracle gateNever (initChains idOracle ["A"]) 0 1 2).2
    (by decide)

/-- C3: when chain i is processed in a round, the proposal is built from
the current text of chain i and the peer texts at that moment; chains of
index at least i still hold their pre-round state, chains of smaller index
already hold their final state of the round, and concretely the peer set
differs from a start-of-round snapshot. -/
theorem claim_C3_sequential_peer_visibility (O : Oracles F)
    (gate : ℕ → F → F → Bool) (chains : List (Chain F)) (n i : ℕ)
    (hi : i < chains.length) :
    propAt O gate chains n i =
      O.propose_refinement (chains.getD i ⟨"", 0⟩).text
        (O.self_critique (chains.getD i ⟨"", 0⟩).text)
        (O.mutual_critique (chains.getD i ⟨"", 0⟩).text
          (peersSeenAt O gate chains n i)) ∧
    (∀ j, i ≤ j → (roundUpTo O gate chains n i).chains[j]? = chains[j]?) ∧
    (∀ j, j < i →
      (roundUpTo O gate chains n i).chains[j]? = (mhRound O gate chains n).chains[j]?) ∧
    peersSeenAt bangOracle gateAlways (initChains bangOracle ["A", "B"]) 0 1 ≠
      peersOf (initChains bangOracle ["A", "B"]) 1 := by
  refine ⟨?_, ?_, ?_, ?_⟩
  · unfold propAt proposeFor peersSeenAt
    dsimp only
    rw [roundUpTo_getD_ge O gate chains n (le_refl i)]
  · intro j hj
    exact roundUpTo_getElem?_ge O gate chains n hj
  · intro j hj
    unfold mhRound
    rw [roundUpTo_getElem?_frozen O gate chains n hj,
      roundUpTo_getElem?_frozen O gate chains n (Nat.lt_trans hj hi)]
  · decide

/-- Witness for C3 at a concrete two-chain round. -/
theorem claim_C3_witness :
    1 < (initChains bangOracle ["A", "B"]).length ∧
    peersSeenAt bangOracle gateAlways (initChains bangOracle ["A", "B"]) 0 1 ≠
      peersOf (initChains bangOracle ["A", "B"]) 1 :=
  ⟨by decide,
    (claim_C3_sequential_peer_visibility bangOracle gateAlways
      (initChains bangOracle ["A", "B"]) 0 1 (by decide)).2.2.2⟩

/-- C4: the run returns the first chain of maximal current score among the
final chains: its score bounds every final score and all chains of smaller
index have strictly smaller score. -/
theorem claim_C4_best_chain_first_argmax (O : Oracles F)
    (gate : ℕ → F → F → Bool) (m T : ℕ) (eps : F) (roles : Option (List String))
    (hne : (finalState O gate m T eps roles).chains ≠ []) :
    ∃ k, ∃ hk : k < (finalState O gate m T eps roles).chains.length,
      mh_c2c O gate m T eps roles =
        some ((finalState O gate m T eps roles).chains.get ⟨k, hk⟩) ∧
      (∀ c ∈ (finalState O gate m T eps roles).chains,
        c.score ≤ ((finalState O gate m T eps roles).chains.get ⟨k, hk⟩).score) ∧
      ∀ j, ∀ hj : j < k,
        ((finalState O gate m T eps roles).chains.get ⟨j, Nat.lt_trans hj hk⟩).score <
          ((finalState O gate m T eps roles).chains.get ⟨k, hk⟩).score := by
  unfold mh_c2c
  cases hc : (finalState O gate m T eps roles).chains with
  | nil => exact absurd hc hne
  | cons x xs =>
    exact pyMax_spec Chain.score x xs

/-- Witness for C4 at a concrete tied run: two chains with equal scores,
the chain of index 0 is returned. -/
theorem claim_C4_witness :
    (finalState idOracle gateNever 2 1 (1 : ℤ) (some ["A", "B"])).chains ≠ [] ∧
    ∃ k, ∃ hk : k < (finalState idOracle gateNever 2 1 (1 : ℤ) (some ["A", "B"])).chains.length,
      mh_c2c idOracle gateNever 2 1 (1 : ℤ) (some ["A", "B"]) =
        some ((finalState idOracle gateNever 2 1 (1 : ℤ) (some ["A", "B"])).chains.get ⟨k, hk⟩) ∧
      (∀ c ∈ (finalState idOracle gateNever 2 1 (1 : ℤ) (some ["A", "B"])).chains,
        c.score ≤ ((finalState idOracle gateNever 2 1 (1 : ℤ) (some ["A", "B"])).chains.get ⟨k, hk⟩).score) ∧
      ∀ j, ∀ hj : j < k,
        ((finalState idOracle gateNever 2 1 (1 : ℤ) (some ["A", "B"])).chains.get
            ⟨j, Nat.lt_trans hj hk⟩).score <
          ((finalState idOracle gateNever 2 1 (1 : ℤ) (some ["A", "B"])).chains.get ⟨k, hk⟩).score :=
  ⟨by decide,
    claim_C4_best_chain_first_argmax idOracle gateNever 2 1 1 (some ["A", "B"])
      (by decide)⟩

/-- C5: a rejected proposal leaves the pair of text and score of its chain
exactly unchanged by the round, and an accepted proposal replaces both
fields together with the proposal text and its score. -/
theorem claim_C5_reject_frame (O : Oracles F) (gate : ℕ → F → F → Bool)
    (chains : List (Chain F)) (n i : ℕ) (hi : i < chains.length) :
    (acceptedAt O gate chains n i = false →
      (mhRound O gate chains n).chains[i]? = some (chains.getD i ⟨"", 0⟩)) ∧
    (acceptedAt O gate chains n i = true →
      (mhRound O gate chains n).chains[i]? =
        some ⟨propAt O gate chains n i, O.score (propAt O gate chains n i)⟩) := by
  constructor <;> intro hA <;> rw [mhRound_getElem? O gate chains n hi, hA] <;> simp

/-- Witness for C5: a rejected chain is returned untouched. -/
theorem claim_C5_witness :
    0 < (initChains idOracle ["A"]).length ∧
    (mhRound idOracle gateNever (initChains idOracle ["A"]) 0).chains[0]? =
      some ((initChains idOracle ["A"]).getD 0 ⟨"", 0⟩) :=
  ⟨by decide,
    (claim_C5_reject_frame idOracle gateNever (initChains idOracle ["A"]) 0 0
      (by decide)).1 rfl⟩

/-- C6: every chain always stores the oracle score of its stored text:
right after round-0 initialisation, after any round step on a consistent
population, and after the whole loop. -/
theorem claim_C6_score_consistency (O : Oracles F) (roles : List String)
    (gate : ℕ → F → F → Bool) (chains : List (Chain F)) (n : ℕ)
    (h : ∀ c ∈ chains, c.score = O.score c.text) :
    (∀ c ∈ initChains O roles, c.score = O.score c.text) ∧
    (∀ c ∈ (mhRound O gate chains n).chains, c.score = O.score c.text) ∧
    ∀ (eps : F) (T : ℕ),
      ∀ c ∈ (mhLoop O gate eps T chains n).chains, c.score = O.score c.text :=
  ⟨initChains_consistent O roles, mhRound_consistent O gate chains n h,
    fun eps T => mhLoop_consistent O gate eps T chains n h⟩

/-- Witness for C6 at a concrete run. -/
theorem claim_C6_witness :
    (∀ c ∈ initChains idOracle ["A"], c.score = idOracle.score c.text) ∧
    ∀ c ∈ (mhRound idOracle gateAlways (initChains idOracle ["A"]) 0).chains,
      c.score = idOracle.score c.text :=
  ⟨(claim_C6_score_consistency idOracle ["A"] gateAlways (initChains idOracle ["A"]) 0
      (by decide)).1,
    (claim_C6_score_consistency idOracle ["A"] gateAlways (initChains idOracle ["A"]) 0
      (by decide)).2.1⟩

/-- C7 counterexample: with an invalid parameter set, a roles list whose
length 2 differs from m = 3, the run raises nothing: it silently uses the
given roles, calls the oracles, and returns a normal best chain built from
oracle outputs. -/
theorem claim_C7_counterexample :
    mh_c2c idOracle gateNever 3 1 (1 : ℤ) (some ["A", "B"]) = some ⟨"A", -1⟩ ∧
    (finalState idOracle gateNever 3 1 (1 : ℤ) (some ["A", "B"])).chains.length = 2 := by
  constructor <;> rfl

/-- C7 amended: the run performs no parameter validation at all; whatever
the parameters, the chain population has the length of the effective roles
list, and the run returns a result exactly when that list is nonempty. -/
theorem claim_C7_no_validation (O : Oracles F) (gate : ℕ → F → F → Bool)
    (m T : ℕ) (eps : F) (roles : Option (List String)) :
    (finalState O gate m T eps roles).chains.length = (effectiveRoles m roles).length ∧
    (mh_c2c O gate m T eps roles).isSome = !(effectiveRoles m roles).isEmpty := by
  have hlen : (finalState O gate m T eps roles).chains.length =
      (effectiveRoles m roles).length := by
    rw [finalState, mhLoop_chains_length, initChains, List.length_map]
  refine ⟨hlen, ?_⟩
  rw [mh_c2c, pyMax_isSome, isEmpty_eq_of_length_eq hlen]

/-- C8 counterexample: two runs that differ in rounds executed and in the
convergence flag return the identical value, so the returned value does
not carry roundsExecuted or converged. -/
theorem claim_C8_counterexample :
    mh_c2c idOracle gateAlways 1 3 (1 : ℤ) (some ["A"]) =
      mh_c2c idOracle gateAlways 1 3 (0 : ℤ) (some ["A"]) ∧
    roundsExecuted idOracle gateAlways 1 3 (1 : ℤ) (some ["A"]) = 1 ∧
    roundsExecuted idOracle gateAlways 1 3 (0 : ℤ) (some ["A"]) = 3 ∧
    convergedRun idOracle gateAlways 1 3 (1 : ℤ) (some ["A"]) = true ∧
    convergedRun idOracle gateAlways 1 3 (0 : ℤ) (some ["A"]) = false :=
  ⟨rfl, rfl, rfl, rfl, rfl⟩

/-- C8 amended: a successful run returns only the best chain, its text and
score; the returned value is a function of the final chain population
alone, so rounds executed and convergence cannot be part of it. -/
theorem claim_C8_result_only_best_chain (O Oa : Oracles F)
    (gate gatea : ℕ → F → F → Bool) (m ma T Ta : ℕ) (eps epsa : F)
    (roles rolesa : Option (List String))
    (h : (finalState O gate m T eps roles).chains =
      (finalState Oa gatea ma Ta epsa rolesa).chains) :
    mh_c2c O gate m T eps roles = mh_c2c Oa gatea ma Ta epsa rolesa := by
  rw [mh_c2c, mh_c2c, h]

/-- Witness for the amended C8 at the two runs of the counterexample. -/
theorem claim_C8_witness :
    (finalState idOracle gateAlways 1 3 (1 : ℤ) (some ["A"])).chains =
      (finalState idOracle gateAlways 1 3 (0 : ℤ) (some ["A"])).chains ∧
    mh_c2c idOracle gateAlways 1 3 (1 : ℤ) (some ["A"]) =
      mh_c2c idOracle gateAlways 1 3 (0 : ℤ) (some ["A"]) :=
  ⟨rfl,
    claim_C8_result_only_best_chain idOracle idOracle gateAlways gateAlways 1 1 3 3
      1 0 (some ["A"]) (some ["A"]) rfl⟩

/-- C9: at beta = 0 the gate accepts every proposal for every draw in the
unit interval, so with an always-accepting gate every chain of a round is
overwritten with its proposal and the score of that proposal. -/
theorem claim_C9_beta_zero_always_accepts :
    (∀ s_old s_new u : ℝ, 0 ≤ u → u < 1 → mh_accept s_old s_new 0 u) ∧
    ∀ (O : Oracles F) (chains : List (Chain F)) (n i : ℕ), i < chains.length →
      (mhRound O (fun _ _ _ => true) chains n).chains[i]? =
        some ⟨propAt O (fun _ _ _ => true) chains n i,
          O.score (propAt O (fun _ _ _ => true) chains n i)⟩ := by
  constructor
  · intro s_old s_new u _ hu1
    unfold mh_accept
    by_cases hd : 0 ≤ s_new - s_old
    · rw [if_pos hd]
      exact hu1
    · rw [if_neg hd, zero_mul, Real.exp_zero]
      exact hu1
  · intro O chains n i hi
    rw [mhRound_getElem? O (fun _ _ _ => true) chains n hi]
    have hA : acceptedAt O (fun _ _ _ => true) chains n i = true := rfl
    rw [hA, if_pos rfl]

/-- Witness for C9 at concrete inputs. -/
theorem claim_C9_witness :
    mh_accept 5 (-7) 0 (9 / 10) ∧
    (mhRound idOracle (fun _ _ _ => true) (initChains idOracle ["A"]) 0).chains[0]? =
      some ⟨propAt idOracle (fun _ _ _ => true) (initChains idOracle ["A"]) 0 0,
        idOracle.score (propAt idOracle (fun _ _ _ => true) (initChains idOracle ["A"]) 0 0)⟩ :=
  ⟨(@claim_C9_beta_zero_always_accepts ℤ _).1 5 (-7) (9 / 10) (by norm_num) (by norm_num),
    (@claim_C9_beta_zero_always_accepts ℤ _).2 idOracle (initChains idOracle ["A"]) 0 0
      (by decide)⟩

/-- C10: a round in which every proposal is rejected leaves the movement
tracker at 0 and the chains untouched, and for every positive eps the run
stops right after that round with the convergence break. -/
theorem claim_C10_all_rejected_converges (O : Oracles F)
    (gate : ℕ → F → F → Bool) (chains : List (Chain F)) (n : ℕ) (eps : F) (T : ℕ)
    (hrej : ∀ k, k < chains.length → acceptedAt O gate chains n k = false) :
    (mhRound O gate chains n).max_delta = 0 ∧
    (mhRound O gate chains n).chains = chains ∧
    (0 < eps →
      mhLoop O gate eps (T + 1) chains n = ⟨chains, n + chains.length, 1, true⟩) := by
  have h1 : (mhRound O gate chains n).max_delta = 0 :=
    roundUpTo_max_delta_of_rejected O gate chains n hrej
  have h2 : (mhRound O gate chains n).chains = chains :=
    roundUpTo_chains_of_rejected O gate chains n hrej
  refine ⟨h1, h2, fun heps => ?_⟩
  rw [mhLoop_succ_of_lt O gate eps T chains n (by rw [h1]; exact heps), h2,
    mhRound_draws]

/-- Witness for C10 at a concrete all-rejected round. -/
theorem claim_C10_witness :
    (∀ k, k < (initChains idOracle ["A"]).length →
      acceptedAt idOracle gateNever (initChains idOracle ["A"]) 0 k = false) ∧
    mhLoop idOracle gateNever (1 : ℤ) (0 + 1) (initChains idOracle ["A"]) 0 =
      ⟨initChains idOracle ["A"], 0 + (initChains idOracle ["A"]).length, 1, true⟩ :=
  ⟨by decide,
    (claim_C10_all_rejected_converges idOracle gateNever (initChains idOracle ["A"])
      0 1 0 (by decide)).2.2 (by decide)⟩

end MHC2C
